import Mathlib

/-!
# Window::Notifications — notification manager interface

A shallow embedding of `Telegram/SourceFiles/window/notifications_manager.h`.

* `ChangeType`, `System.SkipState`, `System.Waiter` and the fields of `System`
  are transcribed from the header.
* `Manager` is the abstract display backend: its public operations forward to
  the protected virtual hooks.  A backend is a record of hooks, each a
  transformer of the backend state `σ`.
* `NativeManager` overrides three of the hooks.
* `QMap` models the Qt ordered map used for `System::_waiters`.
* The bodies of `System::schedule`, `System::clearFromHistory` and
  `System::showGrouped` live in the implementation file, which is not part of
  the header; they are modelled from the specification and marked as such.
-/

namespace Window
namespace Notifications

/-! ## Settings change kinds (header lines 31-40) -/

/-- The `enum class ChangeType` of the header, enumerators in declaration order. -/
inductive ChangeType where
  | SoundEnabled
  | IncludeMuted
  | CountMessages
  | DesktopEnabled
  | ViewParams
  | MaxCount
  | Corner
  | DemoIsShown
  deriving DecidableEq, Repr

/-- The underlying integer of an enumerator: C++ numbers enumerators that have
no initialiser from zero, in declaration order. -/
def ChangeType.toNat : ChangeType → Nat
  | .SoundEnabled => 0
  | .IncludeMuted => 1
  | .CountMessages => 2
  | .DesktopEnabled => 3
  | .ViewParams => 4
  | .MaxCount => 5
  | .Corner => 6
  | .DemoIsShown => 7

/-- All enumerators of `ChangeType`, in declaration order. -/
def ChangeType.all : List ChangeType :=
  [.SoundEnabled, .IncludeMuted, .CountMessages, .DesktopEnabled,
   .ViewParams, .MaxCount, .Corner, .DemoIsShown]

/-- The change kinds as the specification lists them (section 4.5), in the
order of that sentence. -/
inductive SpecChangeKind where
  | soundEnabled
  | includeMuted
  | messageCountDisplay
  | desktopEnabled
  | viewParams
  | maxCount
  | alertCorner
  | demoShown
  deriving DecidableEq, Repr

/-- The specification's change kinds in the order the sentence gives them. -/
def SpecChangeKind.all : List SpecChangeKind :=
  [.soundEnabled, .includeMuted, .messageCountDisplay, .desktopEnabled,
   .viewParams, .maxCount, .alertCorner, .demoShown]

/-- Position of a specification change kind in the sentence of section 4.5. -/
def SpecChangeKind.index : SpecChangeKind → Nat
  | .soundEnabled => 0
  | .includeMuted => 1
  | .messageCountDisplay => 2
  | .desktopEnabled => 3
  | .viewParams => 4
  | .maxCount => 5
  | .alertCorner => 6
  | .demoShown => 7

/-- The correspondence between the header's enumerators and the
specification's change kinds. -/
def ChangeType.toSpec : ChangeType → SpecChangeKind
  | .SoundEnabled => .soundEnabled
  | .IncludeMuted => .includeMuted
  | .CountMessages => .messageCountDisplay
  | .DesktopEnabled => .desktopEnabled
  | .ViewParams => .viewParams
  | .MaxCount => .maxCount
  | .Corner => .alertCorner
  | .DemoIsShown => .demoShown

/-! ## Basic types -/

/-- A `History*`: the conversation a waiter belongs to, ordered as `QMap`
orders its keys. -/
abbrev HistoryId := Nat

/-- The type `MsgId`. -/
abbrev MsgId := Int

/-- The type `crl::time`, a signed millisecond count. -/
abbrev Time := Int

/-- A `PeerData*`, which may be null. -/
abbrev PeerRef := Option Nat

/-! ## The display backend (header lines 133-199) -/

/-- The pure virtual hooks of `Manager` (header lines 179-186).  A backend
implements each hook as a transformer of its own state `σ`. -/
structure ManagerHooks (σ Item Hist : Type) where
  doUpdateAll : σ → σ
  doShowNotification : Item → Int → σ → σ
  doClearAll : σ → σ
  doClearAllFast : σ → σ
  doClearFromItem : Item → σ → σ
  doClearFromHistory : Hist → σ → σ

namespace Manager

variable {σ Item Hist : Type}

/-- The method `Manager::showNotification(item, forwardedCount)`, lines 138-142. -/
def showNotification (b : ManagerHooks σ Item Hist) (item : Item)
    (forwardedCount : Int) (s : σ) : σ :=
  b.doShowNotification item forwardedCount s

/-- The method `Manager::updateAll()`, lines 143-145. -/
def updateAll (b : ManagerHooks σ Item Hist) (s : σ) : σ :=
  b.doUpdateAll s

/-- The method `Manager::clearAll()`, lines 146-148. -/
def clearAll (b : ManagerHooks σ Item Hist) (s : σ) : σ :=
  b.doClearAll s

/-- The method `Manager::clearAllFast()`, lines 149-151. -/
def clearAllFast (b : ManagerHooks σ Item Hist) (s : σ) : σ :=
  b.doClearAllFast s

/-- The method `Manager::clearFromItem(item)`, lines 152-154. -/
def clearFromItem (b : ManagerHooks σ Item Hist) (item : Item) (s : σ) : σ :=
  b.doClearFromItem item s

/-- The method `Manager::clearFromHistory(history)`, lines 155-157. -/
def clearFromHistory (b : ManagerHooks σ Item Hist) (history : Hist) (s : σ) : σ :=
  b.doClearFromHistory history s

end Manager

/-- A record of one hook invocation together with the arguments it received. -/
inductive HookCall (Item Hist : Type) where
  | doUpdateAll
  | doShowNotification (item : Item) (forwardedCount : Int)
  | doClearAll
  | doClearAllFast
  | doClearFromItem (item : Item)
  | doClearFromHistory (history : Hist)
  deriving DecidableEq, Repr

/-- Instrumentation of a backend: every hook does what the backend's hook does
to the backend state and appends its own invocation to a log. -/
def ManagerHooks.traced {σ Item Hist : Type} (b : ManagerHooks σ Item Hist) :
    ManagerHooks (σ × List (HookCall Item Hist)) Item Hist where
  doUpdateAll := fun s => (b.doUpdateAll s.1, s.2 ++ [.doUpdateAll])
  doShowNotification := fun item n s =>
    (b.doShowNotification item n s.1, s.2 ++ [.doShowNotification item n])
  doClearAll := fun s => (b.doClearAll s.1, s.2 ++ [.doClearAll])
  doClearAllFast := fun s => (b.doClearAllFast s.1, s.2 ++ [.doClearAllFast])
  doClearFromItem := fun item s =>
    (b.doClearFromItem item s.1, s.2 ++ [.doClearFromItem item])
  doClearFromHistory := fun h s =>
    (b.doClearFromHistory h s.1, s.2 ++ [.doClearFromHistory h])

/-! ## The native backend (header lines 201-226) -/

/-- What a concrete subclass of `NativeManager` still has to supply:
`doClearAllFast` and `doClearFromHistory` stay pure virtual, and
`doShowNotification` is declared by `NativeManager` with its body outside the
header, so it is taken as given. -/
structure NativeHooks (σ Item Hist : Type) where
  doClearAllFast : σ → σ
  doClearFromHistory : Hist → σ → σ
  doShowNotification : Item → Int → σ → σ

namespace NativeManager

variable {σ Item Hist : Type}

/-- The override `NativeManager::doUpdateAll`, lines 205-207. -/
def doUpdateAll (n : NativeHooks σ Item Hist) (s : σ) : σ :=
  n.doClearAllFast s

/-- The override `NativeManager::doClearAll`, lines 208-210. -/
def doClearAll (n : NativeHooks σ Item Hist) (s : σ) : σ :=
  n.doClearAllFast s

/-- The override `NativeManager::doClearFromItem`, lines 211-212: an empty body. -/
def doClearFromItem (_n : NativeHooks σ Item Hist) (_item : Item) (s : σ) : σ :=
  s

/-- A `NativeManager` seen as a `Manager`: the three overrides above together
with the hooks the subclass supplies. -/
def toManager (n : NativeHooks σ Item Hist) : ManagerHooks σ Item Hist where
  doUpdateAll := doUpdateAll n
  doShowNotification := n.doShowNotification
  doClearAll := doClearAll n
  doClearAllFast := n.doClearAllFast
  doClearFromItem := doClearFromItem n
  doClearFromHistory := n.doClearFromHistory

end NativeManager

/-- The hook invocations a native backend can record: the ones its subclass
implements. -/
inductive NativeCall (Item Hist : Type) where
  | doClearAllFast
  | doClearFromHistory (history : Hist)
  | doShowNotification (item : Item) (forwardedCount : Int)
  deriving DecidableEq, Repr

/-- Instrumentation of a native backend: each subclass hook acts on the
backend state and appends its own invocation to a log. -/
def NativeHooks.traced {σ Item Hist : Type} (n : NativeHooks σ Item Hist) :
    NativeHooks (σ × List (NativeCall Item Hist)) Item Hist where
  doClearAllFast := fun s => (n.doClearAllFast s.1, s.2 ++ [.doClearAllFast])
  doClearFromHistory := fun h s =>
    (n.doClearFromHistory h s.1, s.2 ++ [.doClearFromHistory h])
  doShowNotification := fun item k s =>
    (n.doShowNotification item k s.1, s.2 ++ [.doShowNotification item k])

/-! ## The engine state (header lines 58-131) -/

/-- The enumeration `System::SkipState::Value`, lines 85-89. -/
inductive System.SkipState.Value where
  | Unknown
  | Skip
  | DontSkip
  deriving DecidableEq, Repr

/-- The struct `System::SkipState`, lines 84-92, with its default member
initialisers. -/
structure System.SkipState where
  value : System.SkipState.Value := System.SkipState.Value.Unknown
  silent : Bool := false
  deriving DecidableEq, Repr

/-- All enumerators of `SkipState::Value`, in declaration order. -/
def System.SkipState.Value.all : List System.SkipState.Value :=
  [.Unknown, .Skip, .DontSkip]

/-- The struct `System::Waiter`, lines 104-113. -/
structure System.Waiter where
  msg : MsgId
  when : Time
  notifyBy : PeerRef
  deriving DecidableEq, Repr

/-- The constructor `Waiter(MsgId msg, crl::time when, PeerData *notifyBy)`,
lines 105-109: each member is initialised from the parameter of its name. -/
def System.Waiter.new (msg : MsgId) (when : Time) (notifyBy : PeerRef) : System.Waiter :=
  { msg := msg, when := when, notifyBy := notifyBy }

/-- Modelled from the spec: the message identity of the forward aggregation
(`lastMessageIdentity`, section 3).  The header gives `_lastHistoryItemId` the
type `FullMsgId` without declaring it.  A message is identified by its
conversation and its conversation-scoped sequence number; `none` is the
default-constructed identity. -/
abbrev FullMsgId := Option (HistoryId × MsgId)

/-! ### QMap

`Waiters` is `QMap<History*, Waiter>` (line 114).  A `QMap` keeps its items in
ascending key order; `insert` replaces the value of a key that is present;
`remove` deletes the items of a key; `constFind` looks a key up. -/

/-- The items of a `QMap<History*, V>` in iteration order. -/
abbrev QMap (V : Type) := List (HistoryId × V)

namespace QMap

variable {V : Type}

/-- The empty map. -/
def empty : QMap V := []

/-- The call `QMap::insert(key, value)`: the item goes to its place in key
order, and a value already stored under `key` is replaced. -/
def insert (k : HistoryId) (v : V) : QMap V → QMap V
  | [] => [(k, v)]
  | (k', v') :: rest =>
    if k < k' then (k, v) :: (k', v') :: rest
    else if k = k' then (k, v) :: rest
    else (k', v') :: insert k v rest

/-- The call `QMap::remove(key)`: every item stored under `key` is deleted. -/
def remove (k : HistoryId) (m : QMap V) : QMap V :=
  m.filter (fun e => decide (e.1 ≠ k))

/-- The call `QMap::constFind(key)`: the value of the first item stored under
`key`, if any. -/
def find (k : HistoryId) : QMap V → Option V
  | [] => none
  | (k', v') :: rest => if k = k' then some v' else find k rest

/-- How many items the map stores under `key` (`QMap::count(key)`). -/
def count (k : HistoryId) (m : QMap V) : Nat :=
  (m.filter (fun e => decide (e.1 = k))).length

end QMap

/-- The data members of `System` (lines 100-129).  Timers are represented by
the time they are armed for, `none` when inactive; `_manager` is `none` until
`createManager()` has run.  The session pointer, the observable and the sound
track carry no state the properties below depend on and are left out.
`firstArrival` is not a member of the class: see `System.upsert`. -/
structure System (σ : Type) where
  _whenMaps : QMap (List (MsgId × Time)) := []
  _waiters : QMap System.Waiter := []
  _settingWaiters : QMap System.Waiter := []
  _waitTimer : Option Time := none
  _waitForAllGroupedTimer : Option Time := none
  _whenAlerts : QMap (List (Time × PeerRef)) := []
  _manager : Option σ := none
  _lastForwardedCount : Int := 0
  _lastHistoryItemId : FullMsgId := none
  firstArrival : QMap Time := []

namespace System

variable {σ : Type}

/-- A freshly constructed engine: every member has the value of its default
member initialiser, or of its default constructor when it has none. -/
def fresh : System σ := {}

/-- Modelled from the spec: the durations of section 4.2 (minimum delay,
grouping window, maximum total wait).  No constant of the header gives them,
and the design notes (section 9) leave them to configuration. -/
structure Params where
  minimumDelay : Time
  groupingWindow : Time
  maxGroupingWindow : Time
  deriving DecidableEq, Repr

/-- Modelled from the spec: the Waiter Registry's `upsert(conversation, message,
arrivalTime, peer)` of section 4.2, the registry part of `System::schedule`,
whose body is outside the header.  A conversation without a pending Waiter gets
one, due at `arrivalTime + minimumDelay`.  A pending Waiter has its due time
extended to the new arrival plus the grouping window, bounded by the maximum
total wait counted from the first arrival, and its notifying peer updated; its
message stays.  `firstArrival` remembers the arrival that created the Waiter,
which the Waiter of the header has no member for. -/
def upsert (p : Params) (h : HistoryId) (msg : MsgId) (arrivalTime : Time)
    (peer : PeerRef) (s : System σ) : System σ :=
  match QMap.find h s._waiters, QMap.find h s.firstArrival with
  | some w, some t0 =>
    { s with
      _waiters := QMap.insert h
        (Waiter.new w.msg
          (min (arrivalTime + p.groupingWindow) (t0 + p.maxGroupingWindow)) peer)
        s._waiters }
  | _, _ =>
    { s with
      _waiters := QMap.insert h
        (Waiter.new msg (arrivalTime + p.minimumDelay) peer) s._waiters
      firstArrival := QMap.insert h arrivalTime s.firstArrival }

/-- Modelled from the spec: the Waiter Registry's `remove(conversation)`
(section 4.2); removing an absent entry changes nothing. -/
def remove (h : HistoryId) (s : System σ) : System σ :=
  { s with
    _waiters := QMap.remove h s._waiters
    firstArrival := QMap.remove h s.firstArrival }

/-- Modelled from the spec: the Waiter Registry's `removeMessage(conversation,
message)` of section 4.2: the conversation's Waiter goes when it announces that
message, and nothing happens otherwise. -/
def removeMessage (h : HistoryId) (msg : MsgId) (s : System σ) : System σ :=
  match QMap.find h s._waiters with
  | some w => if w.msg = msg then remove h s else s
  | none => s

/-- Modelled from the spec: `peekEarliest()` of section 4.2, the Waiter with the
least due time, the lower conversation identifier winning a tie (section 4.3). -/
def peekEarliest : QMap Waiter → Option (HistoryId × Waiter)
  | [] => none
  | e :: rest =>
    match peekEarliest rest with
    | none => some e
    | some e' => if e.2.when ≤ e'.2.when then some e else some e'

/-- Modelled from the spec: re-arming of the Wait timer (sections 4.3 and 5):
armed for the earliest remaining Waiter's due time, disarmed when none remain. -/
def rearm (s : System σ) : System σ :=
  { s with _waitTimer := (peekEarliest s._waiters).map (fun e => e.2.when) }

/-- One step of the Waiter Registry's life: an arrival or a removal. -/
inductive RegistryOp where
  | upsert (h : HistoryId) (msg : MsgId) (arrivalTime : Time) (peer : PeerRef)
  | remove (h : HistoryId)
  | removeMessage (h : HistoryId) (msg : MsgId)
  deriving DecidableEq, Repr

/-- The effect of one registry step on the engine. -/
def applyOp (p : Params) (s : System σ) : RegistryOp → System σ
  | .upsert h msg t peer => upsert p h msg t peer s
  | .remove h => remove h s
  | .removeMessage h msg => removeMessage h msg s

/-- The effect of a sequence of registry steps, first to last. -/
def applyOps (p : Params) (ops : List RegistryOp) (s : System σ) : System σ :=
  ops.foldl (applyOp p) s

/-- Modelled from the spec: `System::clearFromHistory`, whose body is outside
the header.  Clearing a conversation that has neither a pending Waiter nor an
Alert returns without effect (section 7).  Otherwise the display backend is
asked to clear the conversation (section 4.4), the conversation's Waiter and
Alerts are destroyed (sections 3 and 4.2), and the Wait timer is re-armed for
the earliest remaining Waiter (section 5). -/
def clearFromHistory {Item : Type} (b : ManagerHooks σ Item HistoryId)
    (h : HistoryId) (s : System σ) : System σ :=
  if (QMap.find h s._waiters).isNone && (QMap.find h s._whenAlerts).isNone then s
  else
    rearm
      { remove h s with
        _manager := s._manager.map (Manager.clearFromHistory b h)
        _whenAlerts := QMap.remove h s._whenAlerts }

/-- Modelled from the spec: the flush order of `showGrouped` (section 4.3), due
time ascending and then conversation identifier. -/
def dueBefore (a b : HistoryId × Waiter) : Prop :=
  a.2.when < b.2.when ∨ (a.2.when = b.2.when ∧ a.1 ≤ b.1)

instance : DecidableRel dueBefore := fun a b =>
  inferInstanceAs (Decidable (a.2.when < b.2.when ∨ (a.2.when = b.2.when ∧ a.1 ≤ b.1)))

/-- Modelled from the spec: the Waiters `showGrouped` dispatches at time `now`
(section 4.3): every Waiter whose due time is at most `now`, sorted by due time
and then conversation identifier. -/
def groupedDue (now : Time) (s : System σ) : List (HistoryId × Waiter) :=
  List.insertionSort dueBefore (s._waiters.filter (fun e => decide (e.2.when ≤ now)))

/-- Modelled from the spec: `System::showGrouped`, whose body is outside the
header (section 4.3).  The due Waiters are dispatched to the display in flush
order, each consumed from the registry, and the Wait timer is re-armed.
`dispatch` is what the Display Dispatcher does with one fired Waiter. -/
def showGrouped (dispatch : HistoryId × Waiter → σ → σ) (now : Time)
    (s : System σ) : System σ :=
  let due := groupedDue now s
  let shown := { s with _manager := s._manager.map (fun m => due.foldl (fun m e => dispatch e m) m) }
  rearm (due.foldl (fun s e => remove e.1 s) shown)

/-- Modelled from the spec: a Display Dispatcher that only records which
Waiter it was handed, in the order of the calls. -/
def recordDispatch (e : HistoryId × Waiter) (log : List (HistoryId × Waiter)) :
    List (HistoryId × Waiter) :=
  log ++ [e]

end System

/-! ## Concrete backends and states used in examples -/

/-- A backend without state: every hook returns at once. -/
def idleBackend : ManagerHooks Unit (HistoryId × MsgId) HistoryId where
  doUpdateAll := fun s => s
  doShowNotification := fun _ _ s => s
  doClearAll := fun s => s
  doClearAllFast := fun s => s
  doClearFromItem := fun _ s => s
  doClearFromHistory := fun _ s => s

/-- A native backend whose state is the list of conversations with a displayed
alert: showing adds the conversation, clearing removes. -/
def listNative : NativeHooks (List HistoryId) (HistoryId × MsgId) HistoryId where
  doClearAllFast := fun _ => []
  doClearFromHistory := fun h s => s.filter (fun x => decide (x ≠ h))
  doShowNotification := fun item _ s => item.1 :: s

/-- The registry of the flush-order example: conversations A = 1, B = 2 and
C = 3, with A and B due at 100 and C due at 50, entered in the order B, A, C. -/
def flushExample : System (List (HistoryId × System.Waiter)) :=
  { _waiters :=
      QMap.insert 3 (System.Waiter.new 33 50 none)
        (QMap.insert 1 (System.Waiter.new 11 100 none)
          (QMap.insert 2 (System.Waiter.new 22 100 none) QMap.empty))
    _manager := some [] }

end Notifications
end Window

/-! # Theorems -/

namespace Window
namespace Notifications

section ManagerTheorems

variable {σ Item Hist : Type}

/-- C3: for every display backend, each public `Manager` operation invokes its
own hook exactly once with the arguments it received and does nothing else: on
the instrumented backend the state becomes what the hook makes of it and the
log grows by that one invocation.  `showNotification` hands over the item and
the forwarded count only. -/
theorem Manager.public_operations_forward (b : ManagerHooks σ Item Hist) (s : σ)
    (log : List (HookCall Item Hist)) (item : Item) (forwardedCount : Int)
    (history : Hist) :
    Manager.showNotification b.traced item forwardedCount (s, log)
        = (b.doShowNotification item forwardedCount s,
            log ++ [HookCall.doShowNotification item forwardedCount])
    ∧ Manager.updateAll b.traced (s, log)
        = (b.doUpdateAll s, log ++ [HookCall.doUpdateAll])
    ∧ Manager.clearAll b.traced (s, log)
        = (b.doClearAll s, log ++ [HookCall.doClearAll])
    ∧ Manager.clearAllFast b.traced (s, log)
        = (b.doClearAllFast s, log ++ [HookCall.doClearAllFast])
    ∧ Manager.clearFromItem b.traced item (s, log)
        = (b.doClearFromItem item s, log ++ [HookCall.doClearFromItem item])
    ∧ Manager.clearFromHistory b.traced history (s, log)
        = (b.doClearFromHistory history s, log ++ [HookCall.doClearFromHistory history]) :=
  ⟨rfl, rfl, rfl, rfl, rfl, rfl⟩

/-- C1: for every native backend and every backend state, `updateAll()` and
`clearAll()` have exactly the effect of `clearAllFast()`: the state is the one
a single `doClearAllFast()` leaves, and the only subclass hook invoked is that
one `doClearAllFast()`. -/
theorem NativeManager.updateAll_clearAll_are_clearAllFast
    (n : NativeHooks σ Item Hist) (s : σ) (log : List (NativeCall Item Hist)) :
    Manager.updateAll (NativeManager.toManager n.traced) (s, log)
        = (n.doClearAllFast s, log ++ [NativeCall.doClearAllFast])
    ∧ Manager.clearAll (NativeManager.toManager n.traced) (s, log)
        = (n.doClearAllFast s, log ++ [NativeCall.doClearAllFast])
    ∧ Manager.clearAllFast (NativeManager.toManager n.traced) (s, log)
        = (n.doClearAllFast s, log ++ [NativeCall.doClearAllFast])
    ∧ Manager.updateAll (NativeManager.toManager n) s
        = Manager.clearAllFast (NativeManager.toManager n) s
    ∧ Manager.clearAll (NativeManager.toManager n) s
        = Manager.clearAllFast (NativeManager.toManager n) s :=
  ⟨rfl, rfl, rfl, rfl, rfl⟩

/-- C2: for every native backend, backend state and item, `clearFromItem(item)`
changes nothing: the state is the same, no subclass hook is invoked, a second
call changes nothing either, and whatever is displayed stays displayed. -/
theorem NativeManager.clearFromItem_noop
    (n : NativeHooks σ Item Hist) (s : σ) (log : List (NativeCall Item Hist))
    (item : Item) :
    Manager.clearFromItem (NativeManager.toManager n.traced) item (s, log) = (s, log)
    ∧ Manager.clearFromItem (NativeManager.toManager n) item s = s
    ∧ Manager.clearFromItem (NativeManager.toManager n) item
        (Manager.clearFromItem (NativeManager.toManager n) item s)
        = Manager.clearFromItem (NativeManager.toManager n) item s :=
  ⟨rfl, rfl, rfl⟩

/-- C6 as stated fails: on the stateless backend, three consecutive
`showNotification` calls for one item with forwarded counts 1, 2, 3 leave three
`doShowNotification` invocations in the log, not the single one with count 3. -/
theorem Manager.showNotification_three_calls_example :
    (Manager.showNotification idleBackend.traced (4, 9) 3
      (Manager.showNotification idleBackend.traced (4, 9) 2
        (Manager.showNotification idleBackend.traced (4, 9) 1 ((), [])))).2
      = [HookCall.doShowNotification (4, 9) 1, HookCall.doShowNotification (4, 9) 2,
          HookCall.doShowNotification (4, 9) 3]
    ∧ (Manager.showNotification idleBackend.traced (4, 9) 3
      (Manager.showNotification idleBackend.traced (4, 9) 2
        (Manager.showNotification idleBackend.traced (4, 9) 1 ((), [])))).2
      ≠ [HookCall.doShowNotification (4, 9) 3] := by
  constructor
  · rfl
  · decide

/-- C6 amended: `Manager::showNotification` does not coalesce.  For every
backend, state and item, three consecutive calls with forwarded counts 1, 2, 3
invoke `doShowNotification` three times, with counts 1, 2, 3 in that order, and
the state is the one those three hook calls leave. -/
theorem Manager.showNotification_not_coalesced (b : ManagerHooks σ Item Hist)
    (s : σ) (log : List (HookCall Item Hist)) (item : Item) :
    Manager.showNotification b.traced item 3
      (Manager.showNotification b.traced item 2
        (Manager.showNotification b.traced item 1 (s, log)))
      = (b.doShowNotification item 3
          (b.doShowNotification item 2 (b.doShowNotification item 1 s)),
         log ++ [HookCall.doShowNotification item 1, HookCall.doShowNotification item 2,
                  HookCall.doShowNotification item 3]) := by
  simp [Manager.showNotification, ManagerHooks.traced]

end ManagerTheorems

/-- C7: `ChangeType` has exactly eight pairwise distinct enumerators, in the
order SoundEnabled, IncludeMuted, CountMessages, DesktopEnabled, ViewParams,
MaxCount, Corner, DemoIsShown; every value is one of them; and they match the
specification's eight change kinds one to one and in order. -/
theorem ChangeType.eight_kinds_in_order :
    ChangeType.all.length = 8
    ∧ ChangeType.all.Nodup
    ∧ (∀ c : ChangeType, c ∈ ChangeType.all)
    ∧ ChangeType.all.map ChangeType.toNat = [0, 1, 2, 3, 4, 5, 6, 7]
    ∧ ChangeType.all = [ChangeType.SoundEnabled, ChangeType.IncludeMuted,
        ChangeType.CountMessages, ChangeType.DesktopEnabled, ChangeType.ViewParams,
        ChangeType.MaxCount, ChangeType.Corner, ChangeType.DemoIsShown]
    ∧ ChangeType.all.map ChangeType.toSpec = SpecChangeKind.all
    ∧ (∀ c : ChangeType, c.toSpec.index = c.toNat)
    ∧ Function.Bijective ChangeType.toSpec := by
  refine ⟨rfl, by decide, ?_, rfl, rfl, rfl, ?_, ?_, ?_⟩
  · intro c; cases c <;> decide
  · intro c; cases c <;> rfl
  · intro a b h; cases a <;> cases b <;> first | rfl | cases h
  · intro k; cases k
    · exact ⟨.SoundEnabled, rfl⟩
    · exact ⟨.IncludeMuted, rfl⟩
    · exact ⟨.CountMessages, rfl⟩
    · exact ⟨.DesktopEnabled, rfl⟩
    · exact ⟨.ViewParams, rfl⟩
    · exact ⟨.MaxCount, rfl⟩
    · exact ⟨.Corner, rfl⟩
    · exact ⟨.DemoIsShown, rfl⟩

/-- C10: a default-constructed `SkipState` has value `Unknown` and is not
silent; `SkipState::Value` has exactly the three distinct values Unknown, Skip,
DontSkip; a freshly constructed engine has `_lastForwardedCount = 0`; and
`Waiter(msg, when, notifyBy)` holds exactly those three values. -/
theorem System.defaults_and_constructors (σ : Type) (msg : MsgId) (when : Time)
    (notifyBy : PeerRef) :
    ({} : System.SkipState).value = System.SkipState.Value.Unknown
    ∧ ({} : System.SkipState).silent = false
    ∧ System.SkipState.Value.all.length = 3
    ∧ System.SkipState.Value.all.Nodup
    ∧ (∀ v : System.SkipState.Value, v ∈ System.SkipState.Value.all)
    ∧ (System.fresh : System σ)._lastForwardedCount = 0
    ∧ (System.Waiter.new msg when notifyBy).msg = msg
    ∧ (System.Waiter.new msg when notifyBy).when = when
    ∧ (System.Waiter.new msg when notifyBy).notifyBy = notifyBy := by
  refine ⟨rfl, rfl, rfl, by decide, ?_, rfl, rfl, rfl, rfl⟩
  intro v; cases v <;> decide

end Notifications
end Window

namespace Window
namespace Notifications

namespace QMap

variable {V : Type}

theorem find_insert (k k' : HistoryId) (v : V) (m : QMap V) :
    find k (insert k' v m) = if k = k' then some v else find k m := by
  induction m with
  | nil => simp [insert, find]
  | cons e rest ih =>
    obtain ⟨a, x⟩ := e
    by_cases h1 : k' < a
    · simp [insert, find, h1]
    · by_cases h2 : k' = a
      · subst h2
        by_cases h3 : k = k' <;> simp [insert, find, h3]
      · by_cases h3 : k = k'
        · subst h3
          simp [insert, find, h1, h2, ih]
        · simp [insert, find, h1, h2, h3, ih]

theorem find_remove (k k' : HistoryId) (m : QMap V) :
    find k (remove k' m) = if k = k' then none else find k m := by
  induction m with
  | nil => simp [remove, find]
  | cons e rest ih =>
    obtain ⟨a, x⟩ := e
    unfold remove at ih ⊢
    by_cases h1 : a = k'
    · subst h1
      by_cases h3 : k = a
      · simp [List.filter, find, h3] at ih ⊢
        simpa [h3] using ih
      · simp [List.filter, find, h3] at ih ⊢
        simpa [h3] using ih
    · by_cases h3 : k = k'
      · subst h3
        have h4 : ¬ k = a := fun h => h1 h.symm
        simp [List.filter, find, h1, h4] at ih ⊢
        exact ih
      · simp [List.filter, find, h1, h3] at ih ⊢
        rw [ih]

theorem mem_insert {k : HistoryId} {v : V} {m : QMap V} {e : HistoryId × V}
    (he : e ∈ insert k v m) : e = (k, v) ∨ e ∈ m := by
  induction m with
  | nil => simpa [insert] using he
  | cons x rest ih =>
    obtain ⟨a, y⟩ := x
    by_cases h1 : k < a
    · simp [insert, h1] at he
      rcases he with he | he | he
      · exact Or.inl he
      · exact Or.inr (by simp [he])
      · exact Or.inr (by simp [he])
    · by_cases h2 : k = a
      · simp [insert, h1, h2] at he
        rcases he with he | he
        · exact Or.inl (by simp [he, h2])
        · exact Or.inr (by simp [he])
      · simp [insert, h1, h2] at he
        rcases he with he | he
        · exact Or.inr (by simp [he])
        · rcases ih he with h | h
          · exact Or.inl h
          · exact Or.inr (by simp [h])

theorem ordered_insert (k : HistoryId) (v : V) (m : QMap V)
    (hm : m.Pairwise (fun a b => a.1 < b.1)) :
    (insert k v m).Pairwise (fun a b => a.1 < b.1) := by
  induction m with
  | nil => simp [insert]
  | cons x rest ih =>
    obtain ⟨a, y⟩ := x
    rw [List.pairwise_cons] at hm
    by_cases h1 : k < a
    · simp only [insert, h1, if_true]
      refine List.pairwise_cons.2 ⟨?_, List.pairwise_cons.2 hm⟩
      intro e he
      rcases List.mem_cons.1 he with h | h
      · subst h; exact h1
      · exact lt_trans h1 (hm.1 e h)
    · by_cases h2 : k = a
      · subst h2
        simp only [insert, h1, if_false, if_true]
        exact List.pairwise_cons.2 ⟨hm.1, hm.2⟩
      · simp only [insert, h1, h2, if_false]
        refine List.pairwise_cons.2 ⟨?_, ih hm.2⟩
        intro e he
        rcases mem_insert he with h | h
        · subst h
          exact lt_of_le_of_ne (not_lt.1 h1) (Ne.symm h2)
        · exact hm.1 e h

theorem ordered_remove (k : HistoryId) (m : QMap V)
    (hm : m.Pairwise (fun a b => a.1 < b.1)) :
    (remove k m).Pairwise (fun a b => a.1 < b.1) :=
  List.Pairwise.filter _ hm

theorem count_le_one (k : HistoryId) (m : QMap V)
    (hm : m.Pairwise (fun a b => a.1 < b.1)) : count k m ≤ 1 := by
  induction m with
  | nil => simp [count]
  | cons x rest ih =>
    obtain ⟨a, y⟩ := x
    rw [List.pairwise_cons] at hm
    by_cases h : a = k
    · subst h
      have h0 : rest.filter (fun e => decide (e.1 = a)) = [] := by
        rw [List.filter_eq_nil_iff]
        intro e he
        have := hm.1 e he
        simp only [decide_eq_true_eq]
        intro h
        rw [h] at this
        exact lt_irrefl _ this
      simp [count, List.filter, h0]
    · have := ih hm.2
      simpa [count, List.filter, h] using this

theorem count_insert (k : HistoryId) (v : V) (m : QMap V)
    (hm : m.Pairwise (fun a b => a.1 < b.1)) : count k (insert k v m) = 1 := by
  induction m with
  | nil => simp [insert, count]
  | cons x rest ih =>
    obtain ⟨a, y⟩ := x
    rw [List.pairwise_cons] at hm
    have hgt : ∀ b, k ≤ b → (∀ e ∈ rest, b < e.1) →
        rest.filter (fun e => decide (e.1 = k)) = [] := by
      intro b hb hall
      rw [List.filter_eq_nil_iff]
      intro e he
      have := hall e he
      simp only [decide_eq_true_eq]
      intro h
      rw [h] at this
      exact lt_irrefl _ (lt_of_le_of_lt hb this)
    by_cases h1 : k < a
    · have h3 : ¬ a = k := h1.ne'
      have h0 := hgt a (le_of_lt h1) hm.1
      simp [insert, h1, count, List.filter, h3, h0]
    · by_cases h2 : k = a
      · subst h2
        have h0 := hgt k (le_refl _) hm.1
        simp [insert, count, List.filter, h0]
      · have h3 : ¬ a = k := fun h => h2 h.symm
        have := ih hm.2
        simpa [insert, h1, h2, count, List.filter, h3] using this

theorem length_insert (k : HistoryId) (v : V) (m : QMap V)
    (hm : m.Pairwise (fun a b => a.1 < b.1)) :
    (insert k v m).length = m.length + (if (find k m).isSome then 0 else 1) := by
  induction m with
  | nil => simp [insert, find]
  | cons x rest ih =>
    obtain ⟨a, y⟩ := x
    rw [List.pairwise_cons] at hm
    by_cases h1 : k < a
    · have h3 : ¬ k = a := h1.ne
      have hnone : find k rest = none := by
        clear ih
        induction rest with
        | nil => rfl
        | cons z r ihr =>
          have hz := hm.1 z (by simp)
          have hz2 : ¬ k = z.1 := (lt_trans h1 hz).ne
          obtain ⟨z1, z2⟩ := z
          simp only [find]
          rw [if_neg hz2]
          apply ihr
          refine ⟨fun e he => hm.1 e (by simp [he]), ?_⟩
          exact (List.pairwise_cons.1 hm.2).2
      simp [insert, h1, find, h3, hnone]
    · by_cases h2 : k = a
      · subst h2
        simp [insert, find]
      · have := ih hm.2
        simp [insert, h1, h2, find, this]
        omega

theorem mem_insert_self (k : HistoryId) (v : V) (m : QMap V) : (k, v) ∈ insert k v m := by
  induction m with
  | nil => simp [insert]
  | cons x rest ih =>
    obtain ⟨a, y⟩ := x
    by_cases h1 : k < a
    · simp [insert, h1]
    · by_cases h2 : k = a
      · simp [insert, h1, h2]
      · simp only [insert, h1, h2, if_false]
        exact List.mem_cons_of_mem _ ih

theorem mem_insert_of_mem {k : HistoryId} (v : V) {m : QMap V} {e : HistoryId × V}
    (he : e ∈ m) (hk : e.1 ≠ k) : e ∈ insert k v m := by
  induction m with
  | nil => cases he
  | cons x rest ih =>
    obtain ⟨a, y⟩ := x
    by_cases h1 : k < a
    · simp only [insert, h1, if_true]
      exact List.mem_cons_of_mem _ he
    · by_cases h2 : k = a
      · subst h2
        rcases List.mem_cons.1 he with h | h
        · exact absurd (by rw [h]) hk
        · simp only [insert, lt_irrefl, if_false, if_true]
          exact List.mem_cons_of_mem _ h
      · simp only [insert, h1, h2, if_false]
        rcases List.mem_cons.1 he with h | h
        · rw [h]; exact List.mem_cons_self _ _
        · exact List.mem_cons_of_mem _ (ih h)

theorem eq_of_mem_of_key_eq {m : QMap V} (hm : m.Pairwise (fun a b => a.1 < b.1))
    {e e' : HistoryId × V} (he : e ∈ m) (he' : e' ∈ m) (hk : e.1 = e'.1) : e = e' := by
  induction m with
  | nil => cases he
  | cons x rest ih =>
    rw [List.pairwise_cons] at hm
    rcases List.mem_cons.1 he with h | h
    · rcases List.mem_cons.1 he' with h' | h'
      · rw [h, h']
      · have := hm.1 e' h'
        rw [← h, hk] at this
        exact absurd this (lt_irrefl _)
    · rcases List.mem_cons.1 he' with h' | h'
      · have := hm.1 e h
        rw [← h', hk] at this
        exact absurd this (lt_irrefl _)
      · exact ih hm.2 h h'

theorem mem_insert_iff (k : HistoryId) (v : V) (m : QMap V)
    (hm : m.Pairwise (fun a b => a.1 < b.1)) (e : HistoryId × V) :
    e ∈ insert k v m ↔ (e = (k, v) ∨ (e ∈ m ∧ e.1 ≠ k)) := by
  constructor
  · intro he
    by_cases hk : e.1 = k
    · left
      exact eq_of_mem_of_key_eq (ordered_insert k v m hm) he (mem_insert_self k v m) hk
    · rcases mem_insert he with h | h
      · exact Or.inl h
      · exact Or.inr ⟨h, hk⟩
  · rintro (h | ⟨h, hk⟩)
    · rw [h]; exact mem_insert_self k v m
    · exact mem_insert_of_mem v h hk

end QMap

namespace System

variable {σ : Type}

theorem upsert_waiters (p : Params) (h : HistoryId) (msg : MsgId) (t : Time)
    (peer : PeerRef) (s : System σ) :
    ∃ w, (upsert p h msg t peer s)._waiters = QMap.insert h w s._waiters := by
  unfold upsert
  split
  · exact ⟨_, rfl⟩
  · exact ⟨_, rfl⟩

theorem ordered_applyOp (p : Params) (s : System σ) (op : RegistryOp)
    (hs : s._waiters.Pairwise (fun a b => a.1 < b.1)) :
    (applyOp p s op)._waiters.Pairwise (fun a b => a.1 < b.1) := by
  cases op with
  | upsert h msg t peer =>
    obtain ⟨w, hw⟩ := upsert_waiters p h msg t peer s
    simp only [applyOp]
    rw [hw]
    exact QMap.ordered_insert h w _ hs
  | remove h => exact QMap.ordered_remove h _ hs
  | removeMessage h msg =>
    simp only [applyOp, removeMessage]
    split
    · split
      · exact QMap.ordered_remove h _ hs
      · exact hs
    · exact hs

theorem ordered_applyOps (p : Params) (ops : List RegistryOp) (s : System σ)
    (hs : s._waiters.Pairwise (fun a b => a.1 < b.1)) :
    (applyOps p ops s)._waiters.Pairwise (fun a b => a.1 < b.1) := by
  induction ops generalizing s with
  | nil => exact hs
  | cons op rest ih => exact ih _ (ordered_applyOp p s op hs)

theorem ordered_reachable (σ : Type) (p : Params) (ops : List RegistryOp) :
    (applyOps p ops (fresh : System σ))._waiters.Pairwise (fun a b => a.1 < b.1) :=
  ordered_applyOps p ops fresh List.Pairwise.nil

theorem upsert_waiters_eq (p : Params) (h : HistoryId) (msg : MsgId) (t : Time)
    (peer : PeerRef) (s : System σ) :
    (upsert p h msg t peer s)._waiters
      = QMap.insert h
          (match QMap.find h s._waiters, QMap.find h s.firstArrival with
            | some w0, some t0 =>
              Waiter.new w0.msg (min (t + p.groupingWindow) (t0 + p.maxGroupingWindow)) peer
            | _, _ => Waiter.new msg (t + p.minimumDelay) peer)
          s._waiters := by
  unfold upsert
  split <;> rfl

/-- C4: after any sequence of arrivals and removals applied to a fresh engine,
`_waiters` holds at most one Waiter for every conversation.  Inserting a Waiter
for a conversation leaves exactly one Waiter for it, the one inserted: a Waiter
the conversation already had is replaced, every other conversation keeps its
Waiter, and the registry grows by one item only when the conversation had none.
An arrival is such an insertion: afterwards the conversation's only Waiter is
the one the arrival creates or extends. -/
theorem at_most_one_waiter (σ : Type) (p : Params) (ops : List RegistryOp)
    (C : HistoryId) (msg : MsgId) (arrivalTime : Time) (peer : PeerRef) (w : Waiter) :
    QMap.count C (applyOps p ops (fresh : System σ))._waiters ≤ 1
    ∧ QMap.count C
        (upsert p C msg arrivalTime peer (applyOps p ops (fresh : System σ)))._waiters = 1
    ∧ (upsert p C msg arrivalTime peer (applyOps p ops (fresh : System σ)))._waiters.length
        = (applyOps p ops (fresh : System σ))._waiters.length
          + (if (QMap.find C (applyOps p ops (fresh : System σ))._waiters).isSome
              then 0 else 1)
    ∧ QMap.find C
        (upsert p C msg arrivalTime peer (applyOps p ops (fresh : System σ)))._waiters
        = some
          (match QMap.find C (applyOps p ops (fresh : System σ))._waiters,
              QMap.find C (applyOps p ops (fresh : System σ)).firstArrival with
            | some w0, some t0 =>
              Waiter.new w0.msg
                (min (arrivalTime + p.groupingWindow) (t0 + p.maxGroupingWindow)) peer
            | _, _ => Waiter.new msg (arrivalTime + p.minimumDelay) peer)
    ∧ (∀ e, e ∈ (upsert p C msg arrivalTime peer
            (applyOps p ops (fresh : System σ)))._waiters
        ↔ (e = (C,
              (match QMap.find C (applyOps p ops (fresh : System σ))._waiters,
                  QMap.find C (applyOps p ops (fresh : System σ)).firstArrival with
                | some w0, some t0 =>
                  Waiter.new w0.msg
                    (min (arrivalTime + p.groupingWindow) (t0 + p.maxGroupingWindow)) peer
                | _, _ => Waiter.new msg (arrivalTime + p.minimumDelay) peer))
            ∨ (e ∈ (applyOps p ops (fresh : System σ))._waiters ∧ e.1 ≠ C)))
    ∧ QMap.count C (QMap.insert C w (applyOps p ops (fresh : System σ))._waiters) = 1
    ∧ QMap.find C (QMap.insert C w (applyOps p ops (fresh : System σ))._waiters) = some w
    ∧ (∀ e, e ∈ QMap.insert C w (applyOps p ops (fresh : System σ))._waiters
        ↔ (e = (C, w) ∨ (e ∈ (applyOps p ops (fresh : System σ))._waiters ∧ e.1 ≠ C)))
    ∧ (QMap.insert C w (applyOps p ops (fresh : System σ))._waiters).length
        = (applyOps p ops (fresh : System σ))._waiters.length
          + (if (QMap.find C (applyOps p ops (fresh : System σ))._waiters).isSome
              then 0 else 1) := by
  have ho := ordered_reachable σ p ops
  have hw := upsert_waiters_eq p C msg arrivalTime peer (applyOps p ops (fresh : System σ))
  refine ⟨QMap.count_le_one C _ ho, ?_, ?_, ?_, ?_, QMap.count_insert C w _ ho, ?_,
    QMap.mem_insert_iff C w _ ho, QMap.length_insert C w _ ho⟩
  · rw [hw]; exact QMap.count_insert C _ _ ho
  · rw [hw]; exact QMap.length_insert C _ _ ho
  · rw [hw, QMap.find_insert, if_pos rfl]
  · rw [hw]; exact QMap.mem_insert_iff C _ _ ho
  · rw [QMap.find_insert, if_pos rfl]

/-- C4 on a concrete registry: conversation 1 has the Waiter of message 10; a
second arrival, message 11 at time 3 from peer 7, leaves conversation 1 with
one Waiter, the extended one, and the registry with one item. -/
theorem at_most_one_waiter_witness :
    QMap.find 1
        (upsert { minimumDelay := 1, groupingWindow := 4, maxGroupingWindow := 6 } 1 11 3
          (some 7)
          (applyOps { minimumDelay := 1, groupingWindow := 4, maxGroupingWindow := 6 }
            [RegistryOp.upsert 1 10 0 none] (fresh : System Unit)))._waiters
      = some (Waiter.new 10 6 (some 7))
    ∧ (upsert { minimumDelay := 1, groupingWindow := 4, maxGroupingWindow := 6 } 1 11 3
          (some 7)
          (applyOps { minimumDelay := 1, groupingWindow := 4, maxGroupingWindow := 6 }
            [RegistryOp.upsert 1 10 0 none] (fresh : System Unit)))._waiters.length
      = 1 :=
  ⟨(at_most_one_waiter Unit { minimumDelay := 1, groupingWindow := 4, maxGroupingWindow := 6 }
      [RegistryOp.upsert 1 10 0 none] 1 11 3 (some 7) (Waiter.new 0 0 none)).2.2.2.1,
   (at_most_one_waiter Unit { minimumDelay := 1, groupingWindow := 4, maxGroupingWindow := 6 }
      [RegistryOp.upsert 1 10 0 none] 1 11 3 (some 7) (Waiter.new 0 0 none)).2.2.1⟩

theorem foldl_remove_manager (l : List (HistoryId × Waiter)) (s : System σ) :
    (l.foldl (fun s e => remove e.1 s) s)._manager = s._manager := by
  induction l generalizing s with
  | nil => rfl
  | cons e rest ih => simpa [List.foldl, remove] using ih (remove e.1 s)

theorem foldl_recordDispatch (l log : List (HistoryId × Waiter)) :
    l.foldl (fun m e => recordDispatch e m) log = log ++ l := by
  induction l generalizing log with
  | nil => simp
  | cons e rest ih =>
    show rest.foldl (fun m e => recordDispatch e m) (recordDispatch e log) = log ++ e :: rest
    rw [ih]
    simp [recordDispatch]

theorem dueBefore_total (a b : HistoryId × Waiter) : dueBefore a b ∨ dueBefore b a := by
  unfold dueBefore
  rcases lt_trichotomy a.2.when b.2.when with h | h | h
  · exact Or.inl (Or.inl h)
  · rcases le_total a.1 b.1 with h1 | h1
    · exact Or.inl (Or.inr ⟨h, h1⟩)
    · exact Or.inr (Or.inr ⟨h.symm, h1⟩)
  · exact Or.inr (Or.inl h)

theorem dueBefore_trans (a b c : HistoryId × Waiter) (hab : dueBefore a b)
    (hbc : dueBefore b c) : dueBefore a c := by
  unfold dueBefore at *
  rcases hab with h | ⟨h, h1⟩
  · rcases hbc with h2 | ⟨h2, _⟩
    · exact Or.inl (lt_trans h h2)
    · exact Or.inl (h2 ▸ h)
  · rcases hbc with h2 | ⟨h2, h3⟩
    · exact Or.inl (h ▸ h2)
    · exact Or.inr ⟨h.trans h2, le_trans h1 h3⟩

theorem clearFromHistory_clears {Item : Type} (b : ManagerHooks σ Item HistoryId)
    (h : HistoryId) (s : System σ) :
    QMap.find h (clearFromHistory b h s)._waiters = none
    ∧ QMap.find h (clearFromHistory b h s)._whenAlerts = none := by
  by_cases hg : ((QMap.find h s._waiters).isNone && (QMap.find h s._whenAlerts).isNone) = true
  · have h1 : clearFromHistory b h s = s := by
      unfold clearFromHistory
      rw [if_pos hg]
    rw [h1]
    simpa [Option.isNone_iff_eq_none] using hg
  · have h1 : clearFromHistory b h s
        = rearm { remove h s with
            _manager := s._manager.map (Manager.clearFromHistory b h)
            _whenAlerts := QMap.remove h s._whenAlerts } := by
      unfold clearFromHistory
      rw [if_neg hg]
    rw [h1]
    simp [rearm, remove, QMap.find_remove]

/-- C5: for every backend, engine state and conversation, clearing the
conversation twice in succession leaves the state that clearing it once leaves,
in which the conversation has neither a pending Waiter nor an Alert; and
clearing a conversation that has neither changes nothing. -/
theorem clearFromHistory_idempotent {Item : Type} (b : ManagerHooks σ Item HistoryId)
    (h : HistoryId) (s : System σ) :
    clearFromHistory b h (clearFromHistory b h s) = clearFromHistory b h s
    ∧ QMap.find h (clearFromHistory b h s)._waiters = none
    ∧ QMap.find h (clearFromHistory b h s)._whenAlerts = none
    ∧ (QMap.find h s._waiters = none → QMap.find h s._whenAlerts = none →
        clearFromHistory b h s = s) := by
  refine ⟨?_, (clearFromHistory_clears b h s).1, (clearFromHistory_clears b h s).2, ?_⟩
  · by_cases hg : ((QMap.find h s._waiters).isNone && (QMap.find h s._whenAlerts).isNone) = true
    · have h1 : clearFromHistory b h s = s := by
        unfold clearFromHistory
        rw [if_pos hg]
      rw [h1, h1]
    · have h1 : clearFromHistory b h s
          = rearm { remove h s with
              _manager := s._manager.map (Manager.clearFromHistory b h)
              _whenAlerts := QMap.remove h s._whenAlerts } := by
        unfold clearFromHistory
        rw [if_neg hg]
      rw [h1]
      generalize hs1 : rearm { remove h s with
              _manager := s._manager.map (Manager.clearFromHistory b h)
              _whenAlerts := QMap.remove h s._whenAlerts } = s1
      have hw : QMap.find h s1._waiters = none := by
        rw [← hs1]
        simp [rearm, remove, QMap.find_remove]
      have ha : QMap.find h s1._whenAlerts = none := by
        rw [← hs1]
        simp [rearm, remove, QMap.find_remove]
      unfold clearFromHistory
      simp [hw, ha]
  · intro hw ha
    unfold clearFromHistory
    simp [hw, ha]

/-- The second half of C5 on a concrete engine: a fresh engine over the list
backend has nothing pending for conversation 4, and clearing it changes
nothing. -/
theorem clearFromHistory_idempotent_witness :
    QMap.find 4 (fresh : System (List HistoryId))._waiters = none
    ∧ QMap.find 4 (fresh : System (List HistoryId))._whenAlerts = none
    ∧ clearFromHistory (NativeManager.toManager listNative) 4
        (fresh : System (List HistoryId)) = fresh :=
  ⟨rfl, rfl,
    (clearFromHistory_idempotent (NativeManager.toManager listNative) 4 fresh).2.2.2 rfl rfl⟩

/-- C8: at every time `now`, `showGrouped` dispatches exactly the Waiters whose
due time is at most `now`, ordered by due time and then by conversation
identifier: the recording dispatcher's log grows by exactly that list.  For the
Waiters A and B due at 100 and C due at 50, with identifiers A < B < C, a flush
at any time from 100 on dispatches C, A, B. -/
theorem showGrouped_flush_order (now : Time) (s : System (List (HistoryId × Waiter)))
    (log : List (HistoryId × Waiter)) :
    (groupedDue now s).Perm (s._waiters.filter (fun e => decide (e.2.when ≤ now)))
    ∧ (∀ e, e ∈ groupedDue now s ↔ (e ∈ s._waiters ∧ e.2.when ≤ now))
    ∧ (groupedDue now s).Pairwise dueBefore
    ∧ (showGrouped recordDispatch now { s with _manager := some log })._manager
        = some (log ++ groupedDue now s)
    ∧ (100 ≤ now → (showGrouped recordDispatch now flushExample)._manager
        = some [(3, Waiter.new 33 50 none), (1, Waiter.new 11 100 none),
            (2, Waiter.new 22 100 none)]) := by
  haveI : IsTotal (HistoryId × Waiter) dueBefore := ⟨dueBefore_total⟩
  haveI : IsTrans (HistoryId × Waiter) dueBefore := ⟨dueBefore_trans⟩
  have hperm : (groupedDue now s).Perm (s._waiters.filter (fun e => decide (e.2.when ≤ now))) :=
    List.perm_insertionSort _ _
  refine ⟨hperm, ?_, ?_, ?_, ?_⟩
  · intro e
    rw [hperm.mem_iff]
    simp [List.mem_filter]
  · exact List.sorted_insertionSort _ _
  · simp only [showGrouped, rearm, foldl_remove_manager, Option.map]
    rw [foldl_recordDispatch]
    rfl
  · intro hnow
    have h50 : (50 : Time) ≤ now := le_trans (by decide) hnow
    have hdue : groupedDue now flushExample
        = [(3, Waiter.new 33 50 none), (1, Waiter.new 11 100 none),
            (2, Waiter.new 22 100 none)] := by
      simp [groupedDue, flushExample, QMap.insert, QMap.empty, Waiter.new, List.filter, hnow,
        h50, List.insertionSort, List.orderedInsert, dueBefore]
    simp only [showGrouped, rearm, foldl_remove_manager]
    rw [hdue]
    rfl

/-- The example of C8 at time 100. -/
theorem showGrouped_flush_order_witness :
    (100 : Time) ≤ 100
    ∧ (showGrouped recordDispatch 100 flushExample)._manager
        = some [(3, Waiter.new 33 50 none), (1, Waiter.new 11 100 none),
            (2, Waiter.new 22 100 none)] :=
  ⟨by decide, (showGrouped_flush_order 100 fresh []).2.2.2.2 (by decide)⟩

end System

end Notifications
end Window
